import Mathlib

/-!
Shallow embedding of `mmpdblib/cli/fragdb_merge.py`: the merge engine that
combines several fragment databases (tables `error_record`, `record`,
`fragmentation`, plus the stored fragmentation options) into one output
database.  Rows are modelled as Lean structures, tables as lists in row
order, and the driver loop as a structurally recursive function returning
either the committed output database or the error `die` was called with,
together with the output state committed at that point.
-/

namespace Mmpdb

/-- Row of the `error_record` table: an input molecule that failed
fragmentation, copied verbatim by the merge. -/
structure ErrorRecord where
  title : String
  input_smiles : String
  errmsg : String
  deriving DecidableEq, Repr

/-- Row of the `record` table: a successfully fragmented input molecule.
`id` is the SQLite integer primary key, assigned afresh by the output
database on insert. -/
structure Record where
  id : Nat
  title : String
  input_smiles : String
  num_normalized_heavies : Nat
  normalized_smiles : String
  deriving DecidableEq, Repr

/-- Row of the `fragmentation` table.  `record_id` is the foreign key to
`record.id`; every other column is self-contained and copied verbatim. -/
structure Fragmentation where
  record_id : Nat
  num_cuts : Nat
  enumeration_label : String
  variable_num_heavies : Nat
  variable_symmetry_class : String
  variable_smiles : String
  attachment_order : String
  constant_num_heavies : Nat
  constant_symmetry_class : String
  constant_smiles : String
  constant_with_H_smiles : String
  deriving DecidableEq, Repr

/-- The columns of a `fragmentation` row other than the re-keyed
`record_id` foreign key. -/
structure FragContent where
  num_cuts : Nat
  enumeration_label : String
  variable_num_heavies : Nat
  variable_symmetry_class : String
  variable_smiles : String
  attachment_order : String
  constant_num_heavies : Nat
  constant_symmetry_class : String
  constant_smiles : String
  constant_with_H_smiles : String
  deriving DecidableEq, Repr

/-- Projection of a fragmentation row to its non-key columns. -/
def Fragmentation.content (f : Fragmentation) : FragContent :=
  { num_cuts := f.num_cuts
    enumeration_label := f.enumeration_label
    variable_num_heavies := f.variable_num_heavies
    variable_symmetry_class := f.variable_symmetry_class
    variable_smiles := f.variable_smiles
    attachment_order := f.attachment_order
    constant_num_heavies := f.constant_num_heavies
    constant_symmetry_class := f.constant_symmetry_class
    constant_smiles := f.constant_smiles
    constant_with_H_smiles := f.constant_with_H_smiles }

/-- Attach a (possibly different) foreign key to fragmentation content. -/
def FragContent.withRecordId (c : FragContent) (record_id : Nat) : Fragmentation :=
  { record_id := record_id
    num_cuts := c.num_cuts
    enumeration_label := c.enumeration_label
    variable_num_heavies := c.variable_num_heavies
    variable_symmetry_class := c.variable_symmetry_class
    variable_smiles := c.variable_smiles
    attachment_order := c.attachment_order
    constant_num_heavies := c.constant_num_heavies
    constant_symmetry_class := c.constant_symmetry_class
    constant_smiles := c.constant_smiles
    constant_with_H_smiles := c.constant_with_H_smiles }

/-- The fragment options stored in a fragdb file, as produced by
`options.to_dict()`.  `FragmentOptions.to_dict` (defined in
`fragment_types.py`, outside this repository slice) always returns a dict
with one fixed key set in one fixed order, so a dict is modelled as the
ordered list of its key/value pairs, values rendered as strings. -/
abbrev OptionsDict := List (String × String)

/-- Dict lookup, `d[k]`. -/
def dictLookup (d : OptionsDict) (k : String) : Option String :=
  (d.find? fun kv => kv.1 == k).map fun kv => kv.2

/-- One input fragment database (opened read-only). -/
structure InputDB where
  error_record : List ErrorRecord
  record : List Record
  fragmentation : List Fragmentation
  options : OptionsDict
  deriving DecidableEq, Repr

/-- The output fragment database held by the destination connection.
`next_id` is the next integer primary key SQLite will assign in `record`
(1 for a fresh table). -/
structure OutputDB where
  error_record : List ErrorRecord
  record : List Record
  fragmentation : List Fragmentation
  next_id : Nat
  options : OptionsDict
  deriving DecidableEq, Repr

/-- Output database right after `fragment_db.init_fragdb` and the index
DDL: all three tables empty, the given options persisted. -/
def emptyOutputDB (options : OptionsDict) : OutputDB :=
  { error_record := [], record := [], fragmentation := [], next_id := 1, options := options }

/-- SQLite assignment of fresh integer primary keys to inserted `record`
rows, in insertion order starting at `next_id`. -/
def assignIds (next_id : Nat) : List Record → List Record
  | [] => []
  | r :: rs => { r with id := next_id } :: assignIds (next_id + 1) rs

/-- The old fragmentations matched to one destination row `new_record`
by the join of step 3: for each `old_record` of the attached input whose
title equals `new_record.title`, the old fragmentations keyed to
`old_record.id`, re-keyed to `new_record.id`. -/
def rekey_one (old : InputDB) (new_record : Record) : List Fragmentation :=
  old.record.flatMap fun old_record =>
    if old_record.title = new_record.title then
      (old.fragmentation.filter fun f => f.record_id == old_record.id).map
        fun f => { f with record_id := new_record.id }
    else []

/-- Step 3 of `fragdb_merge_sql`: the join
`FROM record as new_record, old.record as old_record, old.fragmentation as old_fragmentation
WHERE old_record.title = new_record.title AND old_fragmentation.record_id = old_record.id`,
producing each matching old fragmentation re-keyed to `new_record.id`.
`new_records` is the full destination `record` table after step 2. -/
def rekey_frags (new_records : List Record) (old : InputDB) : List Fragmentation :=
  new_records.flatMap (rekey_one old)

/-- The three INSERT statements of the `fragdb_merge_sql` script, executed
against the destination with the input attached as `old`:
step 1 appends `old.error_record` verbatim, step 2 appends `old.record`
(titles and data verbatim, ids assigned fresh), step 3 appends the
re-keyed fragmentations produced by the title-join of `rekey_frags`. -/
def fragdb_merge_sql (out : OutputDB) (old : InputDB) : OutputDB :=
  let record1 := out.record ++ assignIds out.next_id old.record
  { error_record := out.error_record ++ old.error_record
    record := record1
    fragmentation := out.fragmentation ++ rekey_frags record1 old
    next_id := out.next_id + old.record.length
    options := out.options }

/-- The errors `die` is called with in `fragdb_merge`.  `invalid_format`
is the `ValueError` path of `fragment_db.open_fragdb`; `options_mismatch`
carries the two file names and the differing fields as
(key, value, first value) triples; `duplicate_key` carries the offending
input file and the first colliding record title. -/
inductive MergeError where
  | invalid_format (filename : String)
  | options_mismatch (filename : String) (first_filename : String)
      (diffs : List (String × String × String))
  | duplicate_key (filename : String) (title : String)
  deriving DecidableEq, Repr

/-- The differing fields collected by the `for k in d` loop of
`check_options_mismatch`: each key of `d` whose value differs from
`first_d[k]`, in the iteration order of `d`.  (Both dicts come from
`FragmentOptions.to_dict` and therefore have the same key set, so the
lookup always succeeds; an absent key contributes nothing.) -/
def options_diffs (d first_d : OptionsDict) : List (String × String × String) :=
  d.filterMap fun kv =>
    match dictLookup first_d kv.1 with
    | some v => if kv.2 == v then none else some (kv.1, kv.2, v)
    | none => none

/-- Python `repr` of a string (quote wrapping; escaping is irrelevant for
the values that occur here). -/
def pyrepr (s : String) : String := "\x27" ++ s ++ "\x27"

/-- The message lines passed to `die` by `check_options_mismatch`:
a header naming both files, then one line per differing field of the form
`  field: value != first_value` with repr-ed values. -/
def options_mismatch_lines (filename first_filename : String)
    (diffs : List (String × String × String)) : List String :=
  ("Cannot merge. The options in " ++ pyrepr filename ++ " differ from "
      ++ pyrepr first_filename ++ ".")
    :: diffs.map fun kvv => "  " ++ kvv.1 ++ ": " ++ pyrepr kvv.2.1 ++ " != " ++ pyrepr kvv.2.2

/-- `check_options_mismatch`: returns silently when the two dicts are
equal, otherwise dies with the `options_mismatch` error listing every
differing field. -/
def check_options_mismatch (filename : String) (options : OptionsDict)
    (first_filename : String) (first_options : OptionsDict) : Option MergeError :=
  if options = first_options then none
  else some (.options_mismatch filename first_filename (options_diffs options first_options))

/-- The duplicate-id check run after attaching an input: the first row of
`SELECT old_record.title FROM old.record as old_record, record as new_record
WHERE old_record.title = new_record.title`, if any (the nested-loop scan
takes `old.record` rows in order). -/
def duplicate_title? (out : OutputDB) (old : InputDB) : Option String :=
  (old.record.find? fun old_record =>
      out.record.any fun new_record => old_record.title == new_record.title).map
    fun old_record => old_record.title

/-- The message lines passed to `die` on a duplicate record title. -/
def duplicate_key_lines (filename title : String) : List String :=
  [ "Cannot merge " ++ pyrepr filename ++ ": Duplicate record id " ++ pyrepr title ++ "."
  , "  (Use \x27fragdb_merge\x27 to merge fragdb files from fragmenting different SMILES files,"
  , "   not to merge the fragdb files generated by \x27fragdb_split\x27.)" ]

/-- One input file on the command line: its name, and the database
`fragment_db.open_fragdb` yields for it (`none` when the file is not a
valid fragdb, the `ValueError` path). -/
structure Input where
  filename : String
  contents : Option InputDB
  deriving DecidableEq, Repr

/-- A filesystem: file names with the database content stored in each. -/
abbrev FileSystem := List (String × OutputDB)

/-- `os.unlink`: removes the named file, raising `FileNotFoundError`
(the `.error` case) when it does not exist. -/
def os_unlink (fs : FileSystem) (filename : String) : Except Unit FileSystem :=
  if fs.any fun f => f.1 == filename then
    .ok (fs.filter fun f => f.1 != filename)
  else
    .error ()

/-- `open_output_fragdb`: removes any existing file at `filename`
(passing over `FileNotFoundError`), then `sqlite3.connect` creates the —
now certainly absent — file and `fragment_db.init_fragdb` plus the index
DDL (outside this repository slice) build the empty schema with the given
options in it.  Returns the new filesystem and the open database. -/
def open_output_fragdb (fs : FileSystem) (filename : String) (options : OptionsDict) :
    FileSystem × OutputDB :=
  let fs1 :=
    match os_unlink fs filename with
    | .ok fsOk => fsOk
    | .error _ => fs
  let db := emptyOutputDB options
  ((filename, db) :: fs1, db)

/-- Result of a `fragdb_merge` run: on success the committed output
database and the reporter messages (the optional default-output notice
and the final count line); on `die`, the error together with the output
database as committed at that moment (`none` when the output had not been
opened yet).  `no_inputs` is the asserted-unreachable empty command line. -/
inductive MergeResult where
  | ok (db : OutputDB) (messages : List String)
  | failed (err : MergeError) (db : Option OutputDB)
  | no_inputs
  deriving DecidableEq, Repr

/-- The notice reported when no `--output` option was given and the
default file name is used. -/
def output_notice : Option String → List String
  | none => ["No --output file name specified. Using " ++ pyrepr "merged.fragdb" ++ "."]
  | some _ => []

/-- The final reporter line
`Merge complete. #files: N #records: R #error records: E`. -/
def report_line (num_files num_records num_error_records : Nat) : String :=
  "Merge complete. " ++ "#files: " ++ toString num_files ++ " "
    ++ "#records: " ++ toString num_records ++ " "
    ++ "#error records: " ++ toString num_error_records

/-- The per-input loop of `fragdb_merge`, for the inputs after the first:
open the input (dying on an invalid file), run `check_options_mismatch`
against the reference options of the first file, attach, run the
duplicate-title check (dying on the first collision), execute
`fragdb_merge_sql`, and commit before moving on.  Each `die` happens
before this input's inserts, so the output state carried by `.error` is
exactly the state committed for the preceding inputs. -/
def merge_loop (first_filename : String) (first_options : OptionsDict) :
    OutputDB → List Input → Except (MergeError × OutputDB) OutputDB
  | out, [] => .ok out
  | out, input :: rest =>
    match input.contents with
    | none => .error (.invalid_format input.filename, out)
    | some old =>
      match check_options_mismatch input.filename old.options first_filename first_options with
      | some err => .error (err, out)
      | none =>
        match duplicate_title? out old with
        | some title => .error (.duplicate_key input.filename title, out)
        | none => merge_loop first_filename first_options (fragdb_merge_sql out old) rest

/-- The `fragdb_merge` command: resolve the output name (defaulting to
`merged.fragdb` with a notice), establish the reference options from the
first input and create the output database via `open_output_fragdb`,
run the duplicate check and the merge SQL for the first input (the check
is vacuous against the fresh empty output), then process the remaining
inputs with `merge_loop`; on success report the file count and the final
`record` and `error_record` counts of the committed output. -/
def fragdb_merge (fs : FileSystem) (output_filename? : Option String)
    (filenames : List Input) : MergeResult :=
  let notice := output_notice output_filename?
  let output_filename := output_filename?.getD "merged.fragdb"
  match filenames with
  | [] => .no_inputs
  | first :: rest =>
    match first.contents with
    | none => .failed (.invalid_format first.filename) none
    | some old0 =>
      let out0 := (open_output_fragdb fs output_filename old0.options).2
      match duplicate_title? out0 old0 with
      | some title => .failed (.duplicate_key first.filename title) (some out0)
      | none =>
        match merge_loop first.filename old0.options (fragdb_merge_sql out0 old0) rest with
        | .ok out =>
            .ok out (notice
              ++ [report_line (first :: rest).length out.record.length out.error_record.length])
        | .error (err, out) => .failed err (some out)

/-- Record titles of a `record` table, in row order. -/
def recordTitles (rs : List Record) : List String := rs.map fun r => r.title

/-- Fragmentation content attached to title `t`: for each record row with
that title, the content of the fragmentation rows whose foreign key is
that record's id. -/
def fragsOfTitle (records : List Record) (frags : List Fragmentation) (t : String) :
    List FragContent :=
  records.flatMap fun r =>
    if r.title = t then
      (frags.filter fun f => f.record_id == r.id).map Fragmentation.content
    else []

/-- Well-formedness of an input fragdb, guaranteed by the schema that
produced it: record titles are unique (UNIQUE column), record ids are
unique (integer primary key), and every fragmentation's foreign key
resolves to a record. -/
def InputDB.wf (db : InputDB) : Prop :=
  (recordTitles db.record).Nodup ∧
  (db.record.map fun r => r.id).Nodup ∧
  ∀ f ∈ db.fragmentation, ∃ r ∈ db.record, r.id = f.record_id

instance (db : InputDB) : Decidable db.wf := by
  unfold InputDB.wf
  infer_instance

/-- The columns of a `record` row other than the internally assigned
integer primary key. -/
structure RecordContent where
  title : String
  input_smiles : String
  num_normalized_heavies : Nat
  normalized_smiles : String
  deriving DecidableEq, Repr

/-- Projection of a record row to its non-key columns. -/
def Record.content (r : Record) : RecordContent :=
  { title := r.title
    input_smiles := r.input_smiles
    num_normalized_heavies := r.num_normalized_heavies
    normalized_smiles := r.normalized_smiles }

/-- Lookup of a file's content in the filesystem. -/
def fsLookup (fs : FileSystem) (n : String) : Option OutputDB :=
  (fs.find? fun f => f.1 == n).map fun f => f.2

/-- Databases successfully opened from a list of command-line inputs. -/
def dbsOf (inputs : List Input) : List InputDB := inputs.filterMap Input.contents

/-- Record titles of an input database. -/
def inputTitles (d : InputDB) : List String := recordTitles d.record

/-- Accumulated effect of running `fragdb_merge_sql` for each input in
turn against a starting output state. -/
def merge_folds (out : OutputDB) (dbs : List InputDB) : OutputDB :=
  dbs.foldl fragdb_merge_sql out

/-- The output state carried by a loop result: the committed output both
on success and at the moment `die` fired. -/
def loopOut : Except (MergeError × OutputDB) OutputDB → OutputDB
  | .ok out => out
  | .error (_, out) => out

/-- Whether a run succeeded. -/
def MergeResult.isOk : MergeResult → Bool
  | .ok _ _ => true
  | _ => false

/-- Whether a run died with the duplicate-record-title error. -/
def MergeResult.isDuplicateKeyFailure : MergeResult → Bool
  | .failed (.duplicate_key _ _) _ => true
  | _ => false

/-- Error-record titles of a successful run's output. -/
def MergeResult.errTitles : MergeResult → List String
  | .ok out _ => out.error_record.map fun e => e.title
  | _ => []

/-- The three tables of `b` extend those of `a` by appended suffixes. -/
def OutputDB.grows (b a : OutputDB) : Prop :=
  (∃ t, b.error_record = a.error_record ++ t) ∧
  (∃ t, b.record = a.record ++ t) ∧
  (∃ t, b.fragmentation = a.fragmentation ++ t)

/-- Invariant of the destination database maintained by the merge: record
ids are below the next free id and pairwise distinct, and every
fragmentation's foreign key resolves to some record row. -/
def OutputDB.inv (out : OutputDB) : Prop :=
  (∀ r ∈ out.record, r.id < out.next_id) ∧
  ((out.record.map fun r => r.id).Nodup) ∧
  (∀ g ∈ out.fragmentation, ∃ r ∈ out.record, r.id = g.record_id)

/-- Pairwise disjointness of a family of title lists. -/
def titlesDisjoint (ls : List (List String)) : Prop :=
  ls.Pairwise fun s t => ∀ x ∈ s, x ∉ t

/-- Provenance of the output's fragmentation rows: whenever a record row
resolves a fragmentation's foreign key, some merged input contains a
fragmentation with the same content whose owning record carries the same
title. -/
def fragProvenance (dbs : List InputDB) (out : OutputDB) : Prop :=
  ∀ g ∈ out.fragmentation, ∀ r ∈ out.record, r.id = g.record_id →
    ∃ old ∈ dbs, ∃ f ∈ old.fragmentation, ∃ o ∈ old.record,
      o.id = f.record_id ∧ f.content = g.content ∧ o.title = r.title

instance (ls : List (List String)) : Decidable (titlesDisjoint ls) := by
  unfold titlesDisjoint
  infer_instance

/-! ### Concrete example databases (the scenario of the specification:
input 1 holds records mol1 and mol2 with three fragmentations, input 2
holds record mol3 with one fragmentation) -/

/-- Sample options dict shared by the compatible example inputs. -/
def optsD : OptionsDict := [("cut_smarts", "default"), ("max_heavies", "100")]

/-- Options dict differing from `optsD` in its first field. -/
def optsE : OptionsDict := [("cut_smarts", "special"), ("max_heavies", "100")]

/-- Shorthand for building a sample fragmentation row. -/
def mkFrag (record_id num_cuts : Nat) (vs cs : String) : Fragmentation :=
  { record_id := record_id, num_cuts := num_cuts, enumeration_label := "N",
    variable_num_heavies := 1, variable_symmetry_class := "1", variable_smiles := vs,
    attachment_order := "0", constant_num_heavies := 2, constant_symmetry_class := "1",
    constant_smiles := cs, constant_with_H_smiles := cs }

/-- Shorthand for building a sample record row. -/
def mkRec (id : Nat) (title smiles : String) : Record :=
  { id := id, title := title, input_smiles := smiles,
    num_normalized_heavies := 3, normalized_smiles := smiles }

/-- Example input 1: records mol1 and mol2, three fragmentations. -/
def dbA : InputDB :=
  { error_record := []
    record := [mkRec 1 "mol1" "CCO", mkRec 2 "mol2" "CCN"]
    fragmentation := [mkFrag 1 1 "*O" "CC", mkFrag 1 1 "*CC" "O", mkFrag 2 1 "*N" "CC"]
    options := optsD }

/-- Example input 2: record mol3, one fragmentation. -/
def dbB : InputDB :=
  { error_record := []
    record := [mkRec 1 "mol3" "CCC"]
    fragmentation := [mkFrag 1 1 "*C" "CC"]
    options := optsD }

/-- An input sharing title mol1 with `dbA`, same options. -/
def dbBdup : InputDB :=
  { error_record := []
    record := [mkRec 1 "mol1" "OCC"]
    fragmentation := [mkFrag 1 1 "*O" "CC"]
    options := optsD }

/-- An input sharing title mol1 with `dbA` but carrying different options. -/
def dbBopts : InputDB :=
  { error_record := []
    record := [mkRec 1 "mol1" "OCC"]
    fragmentation := []
    options := optsE }

/-- An input with different options and a fresh title. -/
def dbCopts : InputDB :=
  { error_record := []
    record := [mkRec 1 "mol7" "CO"]
    fragmentation := []
    options := optsE }

/-- An input with an error record titled bad1 and record mol1. -/
def dbE1 : InputDB :=
  { error_record := [{ title := "bad1", input_smiles := "Q", errmsg := "parse" }]
    record := [mkRec 1 "mol1" "CCO"]
    fragmentation := [mkFrag 1 1 "*O" "CC"]
    options := optsD }

/-- An input sharing the error-record title bad1, whose record is also
titled bad1 — colliding with the other input's error title but with no
record title. -/
def dbE2 : InputDB :=
  { error_record := [{ title := "bad1", input_smiles := "R", errmsg := "parse" }]
    record := [mkRec 1 "bad1" "CCC"]
    fragmentation := []
    options := optsD }

/-- Command-line inputs wrapping the example databases. -/
def inpA : Input := { filename := "a.fragdb", contents := some dbA }

def inpB : Input := { filename := "b.fragdb", contents := some dbB }

def inpBdup : Input := { filename := "bdup.fragdb", contents := some dbBdup }

def inpBopts : Input := { filename := "bopts.fragdb", contents := some dbBopts }

def inpCopts : Input := { filename := "copts.fragdb", contents := some dbCopts }

def inpE1 : Input := { filename := "e1.fragdb", contents := some dbE1 }

def inpE2 : Input := { filename := "e2.fragdb", contents := some dbE2 }

/-- The merged output of the two compatible example inputs. -/
def outAB : OutputDB := merge_folds (emptyOutputDB optsD) [dbA, dbB]

/-- The reporter messages of merging the two example inputs with the
default output file name. -/
def msgsAB : List String :=
  output_notice none ++ [report_line 2 outAB.record.length outAB.error_record.length]

/-- The merged output of the single example input `dbA`. -/
def outA : OutputDB := merge_folds (emptyOutputDB optsD) [dbA]

/-- The reporter messages of merging `dbA` alone. -/
def msgsA : List String :=
  output_notice none ++ [report_line 1 outA.record.length outA.error_record.length]

/-- The merged output of the two error-title-sharing example inputs. -/
def outE : OutputDB := merge_folds (emptyOutputDB optsD) [dbE1, dbE2]

/-! ### Structural lemmas about the embedded operations -/

theorem content_set_record_id (f : Fragmentation) (k : Nat) :
    ({ f with record_id := k } : Fragmentation).content = f.content := rfl

theorem record_id_set_record_id (f : Fragmentation) (k : Nat) :
    ({ f with record_id := k } : Fragmentation).record_id = k := rfl

theorem length_assignIds (n : Nat) (rs : List Record) :
    (assignIds n rs).length = rs.length := by
  induction rs generalizing n with
  | nil => rfl
  | cons r rs ih => simp [assignIds, ih]

theorem map_title_assignIds (n : Nat) (rs : List Record) :
    recordTitles (assignIds n rs) = recordTitles rs := by
  induction rs generalizing n with
  | nil => rfl
  | cons r rs ih => simp [assignIds, recordTitles] at ih ⊢; exact ih _

theorem map_content_assignIds (n : Nat) (rs : List Record) :
    (assignIds n rs).map Record.content = rs.map Record.content := by
  induction rs generalizing n with
  | nil => rfl
  | cons r rs ih =>
      simp only [assignIds, List.map_cons, ih]
      rfl

theorem map_id_assignIds (n : Nat) (rs : List Record) :
    (assignIds n rs).map (fun r => r.id) = List.range' n rs.length := by
  induction rs generalizing n with
  | nil => rfl
  | cons r rs ih => simp [assignIds, List.range'_succ, ih]

theorem id_bounds_of_mem_assignIds {n : Nat} {rs : List Record} {r : Record}
    (h : r ∈ assignIds n rs) : n ≤ r.id ∧ r.id < n + rs.length := by
  have : r.id ∈ (assignIds n rs).map (fun r => r.id) := List.mem_map_of_mem _ h
  rw [map_id_assignIds] at this
  exact List.mem_range'_1.mp this

theorem title_mem_of_mem_assignIds {n : Nat} {rs : List Record} {r : Record}
    (h : r ∈ assignIds n rs) : r.title ∈ recordTitles rs := by
  have : r.title ∈ recordTitles (assignIds n rs) := List.mem_map_of_mem _ h
  rwa [map_title_assignIds] at this

theorem sql_error_record (out : OutputDB) (old : InputDB) :
    (fragdb_merge_sql out old).error_record = out.error_record ++ old.error_record := rfl

theorem sql_record (out : OutputDB) (old : InputDB) :
    (fragdb_merge_sql out old).record = out.record ++ assignIds out.next_id old.record := rfl

theorem sql_fragmentation (out : OutputDB) (old : InputDB) :
    (fragdb_merge_sql out old).fragmentation
      = out.fragmentation ++ rekey_frags (out.record ++ assignIds out.next_id old.record) old := rfl

theorem sql_next_id (out : OutputDB) (old : InputDB) :
    (fragdb_merge_sql out old).next_id = out.next_id + old.record.length := rfl

theorem sql_options (out : OutputDB) (old : InputDB) :
    (fragdb_merge_sql out old).options = out.options := rfl

theorem rekey_frags_append (a b : List Record) (old : InputDB) :
    rekey_frags (a ++ b) old = rekey_frags a old ++ rekey_frags b old :=
  List.flatMap_append ..

theorem rekey_one_eq_nil {old : InputDB} {nr : Record}
    (h : ∀ o ∈ old.record, o.title ≠ nr.title) : rekey_one old nr = [] := by
  unfold rekey_one
  rw [List.flatMap_eq_nil_iff]
  intro o ho
  rw [if_neg (h o ho)]

theorem rekey_frags_eq_nil {a : List Record} {old : InputDB}
    (h : ∀ nr ∈ a, ∀ o ∈ old.record, o.title ≠ nr.title) : rekey_frags a old = [] := by
  unfold rekey_frags
  rw [List.flatMap_eq_nil_iff]
  intro nr hnr
  exact rekey_one_eq_nil (h nr hnr)

theorem record_id_of_mem_rekey_one {old : InputDB} {nr : Record} {g : Fragmentation}
    (h : g ∈ rekey_one old nr) : g.record_id = nr.id := by
  unfold rekey_one at h
  rw [List.mem_flatMap] at h
  obtain ⟨o, _, hg⟩ := h
  split at hg
  · rw [List.mem_map] at hg
    obtain ⟨f, _, rfl⟩ := hg
    rfl
  · simp at hg

theorem mem_rekey_frags {a : List Record} {old : InputDB} {g : Fragmentation}
    (h : g ∈ rekey_frags a old) : ∃ nr ∈ a, g ∈ rekey_one old nr := by
  unfold rekey_frags at h
  rwa [List.mem_flatMap] at h

theorem mem_rekey_one {old : InputDB} {nr : Record} {g : Fragmentation}
    (h : g ∈ rekey_one old nr) :
    ∃ o ∈ old.record, o.title = nr.title ∧
      ∃ f ∈ old.fragmentation, f.record_id = o.id ∧ g = { f with record_id := nr.id } := by
  unfold rekey_one at h
  rw [List.mem_flatMap] at h
  obtain ⟨o, ho, hg⟩ := h
  split at hg
  · rw [List.mem_map] at hg
    obtain ⟨f, hf, rfl⟩ := hg
    rw [List.mem_filter] at hf
    exact ⟨o, ho, by assumption, f, hf.1, by simpa using hf.2, rfl⟩
  · simp at hg

theorem map_content_rekey_one (old : InputDB) (nr : Record) :
    (rekey_one old nr).map Fragmentation.content
      = fragsOfTitle old.record old.fragmentation nr.title := by
  unfold rekey_one fragsOfTitle
  rw [List.map_flatMap]
  congr 1
  funext o
  split
  · rw [List.map_map]
    congr 1
  · rfl

theorem fragsOfTitle_append_records (a b : List Record) (F : List Fragmentation) (t : String) :
    fragsOfTitle (a ++ b) F t = fragsOfTitle a F t ++ fragsOfTitle b F t :=
  List.flatMap_append ..

theorem fragsOfTitle_eq_nil {a : List Record} {F : List Fragmentation} {t : String}
    (h : ∀ r ∈ a, r.title ≠ t) : fragsOfTitle a F t = [] := by
  unfold fragsOfTitle
  rw [List.flatMap_eq_nil_iff]
  intro r hr
  rw [if_neg (h r hr)]

theorem fragsOfTitle_congr {a : List Record} {F F' : List Fragmentation} {t : String}
    (h : ∀ r ∈ a, r.title = t →
      F'.filter (fun f => f.record_id == r.id) = F.filter (fun f => f.record_id == r.id)) :
    fragsOfTitle a F' t = fragsOfTitle a F t := by
  unfold fragsOfTitle
  refine List.flatMap_congr fun r hr => ?_
  by_cases ht : r.title = t
  · rw [if_pos ht, if_pos ht, h r hr ht]
  · rw [if_neg ht, if_neg ht]

theorem dbsOf_nil : dbsOf [] = [] := rfl

theorem dbsOf_cons_some {i : Input} {d : InputDB} (h : i.contents = some d) (l : List Input) :
    dbsOf (i :: l) = d :: dbsOf l := by
  unfold dbsOf
  rw [List.filterMap_cons, h]

theorem merge_folds_nil (out : OutputDB) : merge_folds out [] = out := rfl

theorem merge_folds_cons (out : OutputDB) (d : InputDB) (ds : List InputDB) :
    merge_folds out (d :: ds) = merge_folds (fragdb_merge_sql out d) ds := rfl

theorem merge_folds_error_record (out : OutputDB) (ds : List InputDB) :
    (merge_folds out ds).error_record
      = out.error_record ++ ds.flatMap (fun d => d.error_record) := by
  induction ds generalizing out with
  | nil => simp [merge_folds_nil]
  | cons d ds ih =>
      rw [merge_folds_cons, ih, List.flatMap_cons, sql_error_record, List.append_assoc]

theorem merge_folds_record_titles (out : OutputDB) (ds : List InputDB) :
    recordTitles (merge_folds out ds).record
      = recordTitles out.record ++ ds.flatMap inputTitles := by
  induction ds generalizing out with
  | nil => simp [merge_folds_nil]
  | cons d ds ih =>
      rw [merge_folds_cons, ih, List.flatMap_cons, sql_record]
      unfold recordTitles at *
      rw [List.map_append, List.append_assoc]
      have := map_title_assignIds out.next_id d.record
      unfold recordTitles at this
      rw [this]
      rfl

theorem merge_folds_options (out : OutputDB) (ds : List InputDB) :
    (merge_folds out ds).options = out.options := by
  induction ds generalizing out with
  | nil => rfl
  | cons d ds ih => rw [merge_folds_cons, ih, sql_options]

theorem merge_folds_record_length (out : OutputDB) (ds : List InputDB) :
    (merge_folds out ds).record.length
      = out.record.length + (ds.map fun d => d.record.length).sum := by
  have h := congrArg List.length (merge_folds_record_titles out ds)
  unfold recordTitles at h
  simp only [List.length_map, List.length_append] at h
  rw [h, List.length_flatMap]
  have hm : List.map (List.length ∘ inputTitles) ds = ds.map fun d => d.record.length :=
    List.map_congr_left fun d _ => by simp [inputTitles, recordTitles]
  rw [hm]

theorem merge_folds_error_length (out : OutputDB) (ds : List InputDB) :
    (merge_folds out ds).error_record.length
      = out.error_record.length + (ds.map fun d => d.error_record.length).sum := by
  have h := congrArg List.length (merge_folds_error_record out ds)
  simp only [List.length_append] at h
  rw [h, List.length_flatMap]
  rfl

theorem merge_folds_inv {P : OutputDB → Prop} {S : InputDB → Prop}
    (hstep : ∀ o d, P o → S d → P (fragdb_merge_sql o d)) :
    ∀ (ds : List InputDB) (out : OutputDB), (∀ d ∈ ds, S d) → P out →
      P (merge_folds out ds) := by
  intro ds
  induction ds with
  | nil => intro out _ h; exact h
  | cons d ds ih =>
      intro out hS h
      rw [merge_folds_cons]
      exact ih _ (fun e he => hS e (List.mem_cons_of_mem _ he))
        (hstep _ _ h (hS d (List.mem_cons_self _ _)))

theorem merge_loop_nil (fn : String) (fo : OptionsDict) (out : OutputDB) :
    merge_loop fn fo out [] = .ok out := rfl

theorem merge_loop_cons (fn : String) (fo : OptionsDict) (out : OutputDB)
    (i : Input) (rest : List Input) :
    merge_loop fn fo out (i :: rest)
      = match i.contents with
        | none => .error (.invalid_format i.filename, out)
        | some old =>
          match check_options_mismatch i.filename old.options fn fo with
          | some err => .error (err, out)
          | none =>
            match duplicate_title? out old with
            | some title => .error (.duplicate_key i.filename title, out)
            | none => merge_loop fn fo (fragdb_merge_sql out old) rest := rfl

theorem merge_loop_append (fn : String) (fo : OptionsDict) (l₁ l₂ : List Input) :
    ∀ out, merge_loop fn fo out (l₁ ++ l₂)
      = match merge_loop fn fo out l₁ with
        | .ok out1 => merge_loop fn fo out1 l₂
        | .error e => .error e := by
  induction l₁ with
  | nil => intro out; rfl
  | cons i l₁ ih =>
      intro out
      rw [List.cons_append]
      cases hc : i.contents with
      | none => simp only [merge_loop_cons, hc]
      | some old =>
        simp only [merge_loop_cons, hc]
        cases check_options_mismatch i.filename old.options fn fo with
        | some err => rfl
        | none =>
          cases duplicate_title? out old with
          | some title => rfl
          | none => exact ih _

theorem merge_loop_ok_shape (fn : String) (fo : OptionsDict) :
    ∀ (rest : List Input) (out out' : OutputDB),
      merge_loop fn fo out rest = .ok out' →
      out' = merge_folds out (dbsOf rest) ∧ ∀ i ∈ rest, i.contents ≠ none := by
  intro rest
  induction rest with
  | nil =>
      intro out out' h
      rw [merge_loop_nil] at h
      cases h
      exact ⟨rfl, by simp⟩
  | cons i rest ih =>
      intro out out' h
      cases hc : i.contents with
      | none => simp only [merge_loop_cons, hc] at h; cases h
      | some old =>
        simp only [merge_loop_cons, hc] at h
        split at h
        · cases h
        · split at h
          · cases h
          · obtain ⟨h1, h2⟩ := ih _ _ h
            refine ⟨?_, ?_⟩
            · rw [dbsOf_cons_some hc, merge_folds_cons, h1]
            · intro j hj
              rcases List.mem_cons.mp hj with rfl | hj
              · rw [hc]; exact fun hk => by cases hk
              · exact h2 j hj

theorem merge_loop_out_inv {P : OutputDB → Prop} {S : InputDB → Prop}
    (hstep : ∀ o d, P o → S d → P (fragdb_merge_sql o d))
    (fn : String) (fo : OptionsDict) :
    ∀ (rest : List Input) (out : OutputDB),
      (∀ i ∈ rest, ∀ d, i.contents = some d → S d) → P out →
      P (loopOut (merge_loop fn fo out rest)) := by
  intro rest
  induction rest with
  | nil => intro out _ h; exact h
  | cons i rest ih =>
      intro out hS h
      cases hc : i.contents with
      | none => simp only [merge_loop_cons, hc]; exact h
      | some old =>
        have hSold : S old := hS i (List.mem_cons_self _ _) old hc
        simp only [merge_loop_cons, hc]
        cases check_options_mismatch i.filename old.options fn fo with
        | some err => exact h
        | none =>
          cases duplicate_title? out old with
          | some title => exact h
          | none =>
            exact ih _ (fun j hj => hS j (List.mem_cons_of_mem _ hj)) (hstep _ _ h hSold)

theorem grows_refl (a : OutputDB) : a.grows a :=
  ⟨⟨[], by simp⟩, ⟨[], by simp⟩, ⟨[], by simp⟩⟩

theorem grows_sql (a : OutputDB) (d : InputDB) : (fragdb_merge_sql a d).grows a :=
  ⟨⟨_, sql_error_record a d⟩, ⟨_, sql_record a d⟩, ⟨_, sql_fragmentation a d⟩⟩

theorem grows_trans {c b a : OutputDB} (h1 : c.grows b) (h2 : b.grows a) : c.grows a := by
  obtain ⟨⟨t1, e1⟩, ⟨t2, e2⟩, ⟨t3, e3⟩⟩ := h1
  obtain ⟨⟨s1, f1⟩, ⟨s2, f2⟩, ⟨s3, f3⟩⟩ := h2
  exact ⟨⟨s1 ++ t1, by rw [e1, f1, List.append_assoc]⟩,
    ⟨s2 ++ t2, by rw [e2, f2, List.append_assoc]⟩,
    ⟨s3 ++ t3, by rw [e3, f3, List.append_assoc]⟩⟩

theorem merge_loop_grows (fn : String) (fo : OptionsDict) :
    ∀ (rest : List Input) (out : OutputDB),
      (loopOut (merge_loop fn fo out rest)).grows out := by
  intro rest
  induction rest with
  | nil => intro out; exact grows_refl out
  | cons i rest ih =>
      intro out
      cases hc : i.contents with
      | none => simp only [merge_loop_cons, hc]; exact grows_refl out
      | some old =>
        simp only [merge_loop_cons, hc]
        cases check_options_mismatch i.filename old.options fn fo with
        | some err => exact grows_refl out
        | none =>
          cases duplicate_title? out old with
          | some title => exact grows_refl out
          | none => exact grows_trans (ih (fragdb_merge_sql out old)) (grows_sql out old)

theorem mem_recordTitles {t : String} {rs : List Record} :
    t ∈ recordTitles rs ↔ ∃ r ∈ rs, r.title = t := by
  unfold recordTitles
  rw [List.mem_map]

theorem duplicate_title?_eq_none {out : OutputDB} {old : InputDB}
    (h : ∀ o ∈ old.record, o.title ∉ recordTitles out.record) :
    duplicate_title? out old = none := by
  unfold duplicate_title?
  have hf : old.record.find? (fun o => out.record.any fun n => o.title == n.title) = none := by
    rw [List.find?_eq_none]
    intro o ho hp
    rw [List.any_eq_true] at hp
    obtain ⟨n, hn, he⟩ := hp
    exact h o ho (mem_recordTitles.mpr ⟨n, hn, (beq_iff_eq.mp he).symm⟩)
  rw [hf]
  rfl

theorem duplicate_title?_of_empty {out : OutputDB} (old : InputDB) (h : out.record = []) :
    duplicate_title? out old = none :=
  duplicate_title?_eq_none fun o _ ht => by
    obtain ⟨r, hr, _⟩ := mem_recordTitles.mp ht
    rw [h] at hr
    cases hr

theorem duplicate_title?_eq_some {out : OutputDB} {old : InputDB}
    (h : ∃ o ∈ old.record, o.title ∈ recordTitles out.record) :
    ∃ t, duplicate_title? out old = some t ∧
      t ∈ inputTitles old ∧ t ∈ recordTitles out.record := by
  obtain ⟨o, ho, ht⟩ := h
  have hp : (old.record.find? (fun o => out.record.any fun n => o.title == n.title)).isSome := by
    rw [List.find?_isSome]
    refine ⟨o, ho, ?_⟩
    rw [List.any_eq_true]
    obtain ⟨r, hr, hrt⟩ := mem_recordTitles.mp ht
    exact ⟨r, hr, beq_iff_eq.mpr hrt.symm⟩
  obtain ⟨r0, hr0⟩ := Option.isSome_iff_exists.mp hp
  refine ⟨r0.title, ?_, ?_, ?_⟩
  · unfold duplicate_title?
    rw [hr0]
    rfl
  · exact List.mem_map_of_mem _ (List.mem_of_find?_eq_some hr0)
  · have hany := List.find?_some hr0
    rw [List.any_eq_true] at hany
    obtain ⟨n, hn, he⟩ := hany
    exact mem_recordTitles.mpr ⟨n, hn, (beq_iff_eq.mp he).symm⟩

theorem inv_empty (o : OptionsDict) : (emptyOutputDB o).inv := by
  refine ⟨?_, ?_, ?_⟩ <;> simp [emptyOutputDB]

theorem frag_key_lt_of_inv {out : OutputDB} (h : out.inv) :
    ∀ g ∈ out.fragmentation, g.record_id < out.next_id := by
  intro g hg
  obtain ⟨r, hr, hid⟩ := h.2.2 g hg
  rw [← hid]
  exact h.1 r hr

theorem inv_sql {out : OutputDB} (old : InputDB) (h : out.inv) :
    (fragdb_merge_sql out old).inv := by
  obtain ⟨hlt, hnd, hres⟩ := h
  refine ⟨?_, ?_, ?_⟩
  · intro r hr
    rw [sql_record] at hr
    rw [sql_next_id]
    rcases List.mem_append.mp hr with hr | hr
    · exact lt_of_lt_of_le (hlt r hr) (Nat.le_add_right _ _)
    · exact (id_bounds_of_mem_assignIds hr).2
  · rw [sql_record, List.map_append, map_id_assignIds, List.nodup_append]
    refine ⟨hnd, List.nodup_range' _ _ 1 Nat.one_pos, ?_⟩
    intro a ha ha'
    obtain ⟨r, hr, rfl⟩ := List.mem_map.mp ha
    have h2 : out.next_id ≤ r.id := (List.mem_range'_1.mp ha').1
    exact absurd (hlt r hr) (by omega)
  · intro g hg
    rw [sql_fragmentation] at hg
    rw [sql_record]
    rcases List.mem_append.mp hg with hg | hg
    · obtain ⟨r, hr, hid⟩ := hres g hg
      exact ⟨r, List.mem_append_left _ hr, hid⟩
    · obtain ⟨nr, hnr, hone⟩ := mem_rekey_frags hg
      exact ⟨nr, hnr, (record_id_of_mem_rekey_one hone).symm⟩

theorem open_output_fragdb_snd (fs : FileSystem) (fn : String) (o : OptionsDict) :
    (open_output_fragdb fs fn o).2 = emptyOutputDB o := rfl

theorem fragdb_merge_cons {first : Input} {d0 : InputDB} (fs : FileSystem)
    (ofn : Option String) (rest : List Input) (h0 : first.contents = some d0) :
    fragdb_merge fs ofn (first :: rest)
      = match merge_loop first.filename d0.options
          (fragdb_merge_sql (emptyOutputDB d0.options) d0) rest with
        | .ok out => .ok out (output_notice ofn
            ++ [report_line (first :: rest).length out.record.length out.error_record.length])
        | .error (err, out) => .failed err (some out) := by
  simp only [fragdb_merge, h0, open_output_fragdb_snd]
  rw [duplicate_title?_of_empty d0 rfl]

theorem merge_loop_eq_ok (fn : String) (fo : OptionsDict) :
    ∀ (rest : List Input) (out : OutputDB),
      (∀ i ∈ rest, ∀ d, i.contents = some d → d.options = fo) →
      (∀ i ∈ rest, i.contents ≠ none) →
      titlesDisjoint (recordTitles out.record :: (dbsOf rest).map inputTitles) →
      merge_loop fn fo out rest = .ok (merge_folds out (dbsOf rest)) := by
  intro rest
  induction rest with
  | nil => intro out _ _ _; rfl
  | cons i rest ih =>
      intro out hopt hval hdisj
      cases hc : i.contents with
      | none => exact absurd hc (hval i (List.mem_cons_self _ _))
      | some old =>
        simp only [merge_loop_cons, hc]
        have hoeq : old.options = fo := hopt i (List.mem_cons_self _ _) old hc
        rw [dbsOf_cons_some hc] at hdisj
        unfold titlesDisjoint at hdisj
        rw [List.map_cons, List.pairwise_cons] at hdisj
        obtain ⟨hhead, htail⟩ := hdisj
        have hood : ∀ x ∈ recordTitles out.record, x ∉ inputTitles old :=
          hhead (inputTitles old) (List.mem_cons_self _ _)
        have hdup : duplicate_title? out old = none := by
          refine duplicate_title?_eq_none fun o ho hmem => ?_
          exact hood o.title hmem (List.mem_map_of_mem _ ho)
        rw [check_options_mismatch, if_pos hoeq, hdup]
        rw [dbsOf_cons_some hc, merge_folds_cons]
        apply ih
        · intro j hj d hd
          exact hopt j (List.mem_cons_of_mem _ hj) d hd
        · intro j hj
          exact hval j (List.mem_cons_of_mem _ hj)
        · unfold titlesDisjoint
          rw [List.pairwise_cons]
          rw [List.pairwise_cons] at htail
          refine ⟨?_, htail.2⟩
          intro ts hts x hx
          have hx' : x ∈ recordTitles out.record ∨ x ∈ inputTitles old := by
            rw [sql_record] at hx
            unfold recordTitles at hx ⊢
            rw [List.map_append] at hx
            rcases List.mem_append.mp hx with hx | hx
            · exact Or.inl hx
            · right
              have := map_title_assignIds out.next_id old.record
              unfold recordTitles at this
              rw [this] at hx
              exact hx
          rcases hx' with hx' | hx'
          · exact hhead ts (List.mem_cons_of_mem _ hts) x hx'
          · exact htail.1 ts hts x hx'

theorem fragdb_merge_eq_ok {first : Input} {d0 : InputDB} (fs : FileSystem)
    (ofn : Option String) (rest : List Input) (h0 : first.contents = some d0)
    (hopt : ∀ i ∈ rest, ∀ d, i.contents = some d → d.options = d0.options)
    (hval : ∀ i ∈ rest, i.contents ≠ none)
    (hdisj : titlesDisjoint ((dbsOf (first :: rest)).map inputTitles)) :
    fragdb_merge fs ofn (first :: rest)
      = .ok (merge_folds (emptyOutputDB d0.options) (dbsOf (first :: rest)))
          (output_notice ofn
            ++ [report_line (first :: rest).length
                  (merge_folds (emptyOutputDB d0.options) (dbsOf (first :: rest))).record.length
                  (merge_folds (emptyOutputDB d0.options) (dbsOf (first :: rest))).error_record.length]) := by
  rw [fragdb_merge_cons fs ofn rest h0]
  rw [dbsOf_cons_some h0] at hdisj ⊢
  rw [merge_folds_cons]
  have hloop := merge_loop_eq_ok first.filename d0.options rest
    (fragdb_merge_sql (emptyOutputDB d0.options) d0) hopt hval ?_
  · rw [hloop]
  · unfold titlesDisjoint at hdisj ⊢
    rw [List.map_cons, List.pairwise_cons] at hdisj
    rw [List.pairwise_cons]
    refine ⟨?_, hdisj.2⟩
    intro ts hts x hx
    rw [sql_record] at hx
    unfold recordTitles at hx
    rw [List.map_append] at hx
    rcases List.mem_append.mp hx with hx | hx
    · simp [emptyOutputDB] at hx
    · have := map_title_assignIds (emptyOutputDB d0.options).next_id d0.record
      unfold recordTitles at this
      rw [this] at hx
      exact hdisj.1 ts hts x hx

theorem sql_record_titles (out : OutputDB) (old : InputDB) :
    recordTitles (fragdb_merge_sql out old).record
      = recordTitles out.record ++ inputTitles old := by
  rw [sql_record]
  unfold recordTitles inputTitles
  rw [List.map_append]
  have := map_title_assignIds out.next_id old.record
  unfold recordTitles at this
  rw [this]
  rfl

theorem eq_of_mem_of_id_nodup {R : List Record} (hnd : (R.map fun r => r.id).Nodup)
    {r s : Record} (hr : r ∈ R) (hs : s ∈ R) (hid : r.id = s.id) : r = s :=
  List.inj_on_of_nodup_map hnd hr hs hid

theorem key_mem_of_mem_rekey_frags {a : List Record} {old : InputDB} {g : Fragmentation}
    (h : g ∈ rekey_frags a old) : ∃ nr ∈ a, g.record_id = nr.id := by
  obtain ⟨nr, hnr, hone⟩ := mem_rekey_frags h
  exact ⟨nr, hnr, record_id_of_mem_rekey_one hone⟩

theorem filter_rekey_frags :
    ∀ {a : List Record}, ((a.map fun r => r.id).Nodup) →
      ∀ {r : Record} (old : InputDB), r ∈ a →
        (rekey_frags a old).filter (fun f => f.record_id == r.id) = rekey_one old r := by
  intro a
  induction a with
  | nil => intro _ r _ hr; cases hr
  | cons b a ih =>
      intro hnd r old hr
      rw [List.map_cons, List.nodup_cons] at hnd
      have hsplit : rekey_frags (b :: a) old = rekey_one old b ++ rekey_frags a old := by
        unfold rekey_frags
        rw [List.flatMap_cons]
      rw [hsplit, List.filter_append]
      rcases List.mem_cons.mp hr with rfl | hr
      · have h1 : (rekey_one old r).filter (fun f => f.record_id == r.id) = rekey_one old r := by
          rw [List.filter_eq_self]
          intro g hg
          rw [record_id_of_mem_rekey_one hg]
          exact beq_self_eq_true _
        have h2 : (rekey_frags a old).filter (fun f => f.record_id == r.id) = [] := by
          rw [List.filter_eq_nil_iff]
          intro g hg
          obtain ⟨nr, hnr, hk⟩ := key_mem_of_mem_rekey_frags hg
          rw [hk]
          intro hc
          exact hnd.1 ((beq_iff_eq.mp hc) ▸ List.mem_map_of_mem (fun r => r.id) hnr)
        rw [h1, h2, List.append_nil]
      · have hne : b.id ≠ r.id := by
          intro hc
          exact hnd.1 (hc ▸ List.mem_map_of_mem (fun r => r.id) hr)
        have h1 : (rekey_one old b).filter (fun f => f.record_id == r.id) = [] := by
          rw [List.filter_eq_nil_iff]
          intro g hg
          rw [record_id_of_mem_rekey_one hg]
          intro hc
          exact hne (beq_iff_eq.mp hc)
        rw [h1, ih hnd.2 old hr, List.nil_append]

theorem fragsOfTitle_pick :
    ∀ {R : List Record}, (recordTitles R).Nodup →
      ∀ {o : Record} (F : List Fragmentation), o ∈ R →
        fragsOfTitle R F o.title
          = (F.filter fun f => f.record_id == o.id).map Fragmentation.content := by
  intro R
  induction R with
  | nil => intro _ o _ ho; cases ho
  | cons b R ih =>
      intro hnd o F ho
      unfold recordTitles at hnd
      rw [List.map_cons, List.nodup_cons] at hnd
      have hsplit : fragsOfTitle (b :: R) F o.title
          = (if b.title = o.title then
              (F.filter fun f => f.record_id == b.id).map Fragmentation.content
             else []) ++ fragsOfTitle R F o.title := by
        unfold fragsOfTitle
        rw [List.flatMap_cons]
      rw [hsplit]
      rcases List.mem_cons.mp ho with rfl | ho
      · rw [if_pos rfl]
        have h2 : fragsOfTitle R F o.title = [] := by
          refine fragsOfTitle_eq_nil fun r hr hc => ?_
          exact hnd.1 (hc ▸ List.mem_map_of_mem (fun r => r.title) hr)
        rw [h2, List.append_nil]
      · have hne : b.title ≠ o.title := by
          intro hc
          exact hnd.1 (hc ▸ List.mem_map_of_mem (fun r => r.title) ho)
        rw [if_neg hne, ih hnd.2 F ho, List.nil_append]

theorem rekey_frags_record1 {out : OutputDB} {old : InputDB}
    (hdisj : ∀ x ∈ recordTitles out.record, x ∉ inputTitles old) :
    rekey_frags (out.record ++ assignIds out.next_id old.record) old
      = rekey_frags (assignIds out.next_id old.record) old := by
  rw [rekey_frags_append]
  have h : rekey_frags out.record old = [] := by
    refine rekey_frags_eq_nil fun nr hnr o ho hc => ?_
    exact hdisj nr.title (List.mem_map_of_mem _ hnr) (hc ▸ List.mem_map_of_mem _ ho)
  rw [h, List.nil_append]

theorem sql_fragsOfTitle_preserved {out : OutputDB} {old : InputDB} {t : String}
    (hinv : out.inv)
    (hdisj : ∀ x ∈ recordTitles out.record, x ∉ inputTitles old)
    (ht : t ∉ inputTitles old) :
    fragsOfTitle (fragdb_merge_sql out old).record (fragdb_merge_sql out old).fragmentation t
      = fragsOfTitle out.record out.fragmentation t := by
  rw [sql_record, sql_fragmentation, rekey_frags_record1 hdisj]
  rw [fragsOfTitle_append_records]
  have h2 : fragsOfTitle (assignIds out.next_id old.record)
      (out.fragmentation ++ rekey_frags (assignIds out.next_id old.record) old) t = [] := by
    refine fragsOfTitle_eq_nil fun r hr hc => ?_
    exact ht (hc ▸ title_mem_of_mem_assignIds hr)
  rw [h2, List.append_nil]
  refine fragsOfTitle_congr fun r hr _ => ?_
  rw [List.filter_append]
  have h3 : (rekey_frags (assignIds out.next_id old.record) old).filter
      (fun f => f.record_id == r.id) = [] := by
    rw [List.filter_eq_nil_iff]
    intro g hg
    obtain ⟨nr, hnr, hk⟩ := key_mem_of_mem_rekey_frags hg
    rw [hk]
    intro hc
    have hge := (id_bounds_of_mem_assignIds hnr).1
    have hlt := hinv.1 r hr
    rw [beq_iff_eq] at hc
    omega
  rw [h3, List.append_nil]

theorem sql_fragsOfTitle_new {out : OutputDB} {old : InputDB} {t : String}
    (hinv : out.inv)
    (hdisj : ∀ x ∈ recordTitles out.record, x ∉ inputTitles old)
    (hnd : (inputTitles old).Nodup)
    (ht : t ∈ inputTitles old) :
    fragsOfTitle (fragdb_merge_sql out old).record (fragdb_merge_sql out old).fragmentation t
      = fragsOfTitle old.record old.fragmentation t := by
  rw [sql_record, sql_fragmentation, rekey_frags_record1 hdisj]
  rw [fragsOfTitle_append_records]
  have h1 : fragsOfTitle out.record
      (out.fragmentation ++ rekey_frags (assignIds out.next_id old.record) old) t = [] := by
    refine fragsOfTitle_eq_nil fun r hr hc => ?_
    exact hdisj t (hc ▸ List.mem_map_of_mem _ hr) ht
  rw [h1, List.nil_append]
  have htA : t ∈ recordTitles (assignIds out.next_id old.record) := by
    rw [map_title_assignIds]
    exact ht
  obtain ⟨nr, hnr, hnt⟩ := mem_recordTitles.mp htA
  have hndA : (recordTitles (assignIds out.next_id old.record)).Nodup := by
    rw [map_title_assignIds]
    exact hnd
  subst hnt
  rw [fragsOfTitle_pick hndA _ hnr, List.filter_append]
  have h2 : out.fragmentation.filter (fun f => f.record_id == nr.id) = [] := by
    rw [List.filter_eq_nil_iff]
    intro g hg hc
    have h3 := frag_key_lt_of_inv hinv g hg
    have h4 := (id_bounds_of_mem_assignIds hnr).1
    rw [beq_iff_eq] at hc
    omega
  have hidA : (((assignIds out.next_id old.record).map fun r => r.id).Nodup) := by
    rw [map_id_assignIds]
    exact List.nodup_range' _ _ 1 Nat.one_pos
  rw [h2, List.nil_append, filter_rekey_frags hidA old hnr, map_content_rekey_one]

theorem merge_folds_fragsOfTitle :
    ∀ (ds : List InputDB) (out : OutputDB), out.inv →
      (∀ d ∈ ds, (inputTitles d).Nodup) →
      titlesDisjoint (recordTitles out.record :: ds.map inputTitles) →
      (∀ t, (∀ d ∈ ds, t ∉ inputTitles d) →
        fragsOfTitle (merge_folds out ds).record (merge_folds out ds).fragmentation t
          = fragsOfTitle out.record out.fragmentation t) ∧
      (∀ d ∈ ds, ∀ t ∈ inputTitles d,
        fragsOfTitle (merge_folds out ds).record (merge_folds out ds).fragmentation t
          = fragsOfTitle d.record d.fragmentation t) := by
  intro ds
  induction ds with
  | nil =>
      intro out _ _ _
      exact ⟨fun t _ => rfl, fun d hd => absurd hd (List.not_mem_nil d)⟩
  | cons d ds ih =>
      intro out hinv hnd hdisj
      unfold titlesDisjoint at hdisj
      rw [List.map_cons, List.pairwise_cons] at hdisj
      obtain ⟨hhead, htail⟩ := hdisj
      rw [List.pairwise_cons] at htail
      obtain ⟨hd_tail, htail2⟩ := htail
      have hod : ∀ x ∈ recordTitles out.record, x ∉ inputTitles d :=
        hhead (inputTitles d) (List.mem_cons_self _ _)
      have hinv' : (fragdb_merge_sql out d).inv := inv_sql d hinv
      have hdisj' : titlesDisjoint
          (recordTitles (fragdb_merge_sql out d).record :: ds.map inputTitles) := by
        unfold titlesDisjoint
        rw [List.pairwise_cons]
        refine ⟨?_, htail2⟩
        intro ts hts x hx
        rw [sql_record_titles] at hx
        rcases List.mem_append.mp hx with hx | hx
        · exact hhead ts (List.mem_cons_of_mem _ hts) x hx
        · exact hd_tail ts hts x hx
      have ihds := ih (fragdb_merge_sql out d) hinv'
        (fun e he => hnd e (List.mem_cons_of_mem _ he)) hdisj'
      rw [merge_folds_cons]
      constructor
      · intro t htna
        rw [ihds.1 t (fun e he => htna e (List.mem_cons_of_mem _ he))]
        exact sql_fragsOfTitle_preserved hinv hod (htna d (List.mem_cons_self _ _))
      · intro e he t hte
        rcases List.mem_cons.mp he with rfl | he
        · have htds : ∀ e' ∈ ds, t ∉ inputTitles e' := by
            intro e' he' hc
            exact hd_tail (inputTitles e') (List.mem_map_of_mem _ he') t hte hc
          rw [ihds.1 t htds]
          exact sql_fragsOfTitle_new hinv hod (hnd _ (List.mem_cons_self _ _)) hte
        · exact ihds.2 e he t hte

theorem partition_perm :
    ∀ (R : List Record) (F : List Fragmentation),
      ((R.map fun r => r.id).Nodup) →
      (∀ f ∈ F, ∃ r ∈ R, r.id = f.record_id) →
      (R.flatMap fun r => F.filter fun f => f.record_id == r.id).Perm F := by
  intro R
  induction R with
  | nil =>
      intro F _ hres
      have hF : F = [] := by
        cases F with
        | nil => rfl
        | cons f F =>
            obtain ⟨r, hr, _⟩ := hres f (List.mem_cons_self _ _)
            cases hr
      rw [hF, List.flatMap_nil]
  | cons a R ih =>
      intro F hnd hres
      rw [List.map_cons, List.nodup_cons] at hnd
      rw [List.flatMap_cons]
      have hswap : (R.flatMap fun r => F.filter fun f => f.record_id == r.id)
          = R.flatMap fun r =>
              (F.filter fun f => !(f.record_id == a.id)).filter fun f => f.record_id == r.id := by
        refine List.flatMap_congr fun r hr => ?_
        rw [List.filter_filter]
        refine (List.filter_congr fun f _ => ?_).symm
        by_cases hk : f.record_id = r.id
        · have hne : r.id ≠ a.id := by
            intro hc
            exact hnd.1 (hc ▸ List.mem_map_of_mem (fun r => r.id) hr)
          have hna : (f.record_id == a.id) = false := by
            rw [beq_eq_false_iff_ne, hk]
            exact hne
          simp [hk, hna, hne]
        · have hkf : (f.record_id == r.id) = false := by
            rw [beq_eq_false_iff_ne]
            exact hk
          simp [hkf]
      rw [hswap]
      have hres' : ∀ f ∈ F.filter fun f => !(f.record_id == a.id),
          ∃ r ∈ R, r.id = f.record_id := by
        intro f hf
        rw [List.mem_filter] at hf
        obtain ⟨r, hr, hid⟩ := hres f hf.1
        rcases List.mem_cons.mp hr with rfl | hr
        · rw [← hid] at hf
          simp at hf
        · exact ⟨r, hr, hid⟩
      have hperm := ih (F.filter fun f => !(f.record_id == a.id)) hnd.2 hres'
      have happ := hperm.append_left (F.filter fun f => f.record_id == a.id)
      exact happ.trans (List.filter_append_perm _ F)

theorem flatMap_title_assignIds {α : Type} (n : Nat) (rs : List Record)
    (h : String → List α) :
    ((assignIds n rs).flatMap fun r => h r.title) = rs.flatMap fun r => h r.title := by
  induction rs generalizing n with
  | nil => rfl
  | cons r rs ih =>
      rw [assignIds, List.flatMap_cons, List.flatMap_cons, ih]

theorem rekey_frags_content_perm {old : InputDB} (n : Nat) (hwf : old.wf) :
    ((rekey_frags (assignIds n old.record) old).map Fragmentation.content).Perm
      (old.fragmentation.map Fragmentation.content) := by
  obtain ⟨hnt, hnid, hres⟩ := hwf
  unfold rekey_frags
  rw [List.map_flatMap]
  have h1 : ((assignIds n old.record).flatMap fun nr =>
        (rekey_one old nr).map Fragmentation.content)
      = (assignIds n old.record).flatMap fun nr =>
          fragsOfTitle old.record old.fragmentation nr.title := by
    refine List.flatMap_congr fun nr _ => ?_
    exact map_content_rekey_one old nr
  rw [h1, flatMap_title_assignIds]
  have h2 : (old.record.flatMap fun r => fragsOfTitle old.record old.fragmentation r.title)
      = old.record.flatMap fun r =>
          (old.fragmentation.filter fun f => f.record_id == r.id).map Fragmentation.content := by
    refine List.flatMap_congr fun r hr => ?_
    exact fragsOfTitle_pick hnt _ hr
  rw [h2, ← List.map_flatMap]
  exact (partition_perm old.record old.fragmentation hnid hres).map _

theorem fragProvenance_sql {dbs : List InputDB} {out : OutputDB} {old : InputDB}
    (hinv : out.inv) (hprov : fragProvenance dbs out) (hold : old ∈ dbs) :
    fragProvenance dbs (fragdb_merge_sql out old) := by
  intro g hg r hr hid
  have hinv' := inv_sql old hinv
  rw [sql_fragmentation] at hg
  rw [sql_record] at hr
  rcases List.mem_append.mp hg with hg | hg
  · rcases List.mem_append.mp hr with hr | hr
    · exact hprov g hg r hr hid
    · have h1 := frag_key_lt_of_inv hinv g hg
      have h2 := (id_bounds_of_mem_assignIds hr).1
      omega
  · obtain ⟨nr, hnr, hone⟩ := mem_rekey_frags hg
    obtain ⟨o, ho, hot, f, hf, hfk, hgf⟩ := mem_rekey_one hone
    have hreq : r = nr := by
      refine eq_of_mem_of_id_nodup hinv'.2.1 ?_ ?_ ?_
      · rw [sql_record]
        exact hr
      · rw [sql_record]
        exact hnr
      · rw [hid, hgf]
    refine ⟨old, hold, f, hf, o, ho, hfk.symm, ?_, ?_⟩
    · rw [hgf]
      rfl
    · rw [hreq, hot]

theorem fragProvenance_empty (dbs : List InputDB) (o : OptionsDict) :
    fragProvenance dbs (emptyOutputDB o) := by
  intro g hg
  cases hg

theorem fragdb_merge_nil (fs : FileSystem) (ofn : Option String) :
    fragdb_merge fs ofn [] = .no_inputs := rfl

theorem fragdb_merge_cons_none {first : Input} (fs : FileSystem) (ofn : Option String)
    (rest : List Input) (h0 : first.contents = none) :
    fragdb_merge fs ofn (first :: rest) = .failed (.invalid_format first.filename) none := by
  simp only [fragdb_merge, h0]

theorem fragdb_merge_ok_elim {fs : FileSystem} {ofn : Option String}
    {inputs : List Input} {out : OutputDB} {msgs : List String}
    (h : fragdb_merge fs ofn inputs = .ok out msgs) :
    ∃ first rest d0, inputs = first :: rest ∧ first.contents = some d0 ∧
      out = merge_folds (emptyOutputDB d0.options) (dbsOf inputs) ∧
      msgs = output_notice ofn
        ++ [report_line inputs.length out.record.length out.error_record.length] ∧
      ∀ i ∈ inputs, i.contents ≠ none := by
  cases inputs with
  | nil => rw [fragdb_merge_nil] at h; cases h
  | cons first rest =>
      cases hc : first.contents with
      | none => rw [fragdb_merge_cons_none fs ofn rest hc] at h; cases h
      | some d0 =>
          rw [fragdb_merge_cons fs ofn rest hc] at h
          split at h
          · rename_i out1 heq
            cases h
            obtain ⟨h1, h2⟩ := merge_loop_ok_shape _ _ rest _ _ heq
            refine ⟨first, rest, d0, rfl, hc, ?_, rfl, ?_⟩
            · rw [dbsOf_cons_some hc, merge_folds_cons, h1]
            · intro i hi
              rcases List.mem_cons.mp hi with rfl | hi
              · rw [hc]
                exact fun hk => by cases hk
              · exact h2 i hi
          · rename_i e heq
            obtain ⟨err, out1⟩ := e
            cases h

theorem fragdb_merge_ok_loop {fs : FileSystem} {ofn : Option String}
    {first : Input} {rest : List Input} {d0 : InputDB} {out : OutputDB} {msgs : List String}
    (h0 : first.contents = some d0)
    (h : fragdb_merge fs ofn (first :: rest) = .ok out msgs) :
    merge_loop first.filename d0.options
      (fragdb_merge_sql (emptyOutputDB d0.options) d0) rest = .ok out := by
  rw [fragdb_merge_cons fs ofn rest h0] at h
  split at h
  · rename_i out1 heq
    cases h
    exact heq
  · rename_i e heq
    obtain ⟨err, out1⟩ := e
    cases h

theorem mem_options_diffs {d df : OptionsDict} {k v w : String} :
    (k, v, w) ∈ options_diffs d df ↔
      ((k, v) ∈ d ∧ dictLookup df k = some w ∧ v ≠ w) := by
  unfold options_diffs
  rw [List.mem_filterMap]
  constructor
  · rintro ⟨⟨k0, v0⟩, hmem, hsome⟩
    cases hl : dictLookup df k0 with
    | none => simp only [hl] at hsome; cases hsome
    | some w0 =>
        simp only [hl] at hsome
        by_cases he : (v0 == w0) = true
        · rw [if_pos he] at hsome
          cases hsome
        · rw [if_neg he] at hsome
          cases hsome
          refine ⟨hmem, hl, ?_⟩
          intro hc
          exact he (beq_iff_eq.mpr hc)
  · rintro ⟨hmem, hl, hne⟩
    refine ⟨(k, v), hmem, ?_⟩
    have hb : ¬ (v == w) = true := fun hc => hne (beq_iff_eq.mp hc)
    simp only [hl]
    rw [if_neg hb]

/-! ### Claim theorems -/

/-- C2: after every successful merge, every fragmentation row's
`record_id` resolves to exactly one record row of the output, and that
row's title equals the title of the record that owned the fragmentation
in its originating input database (which holds a fragmentation of the
same content, keyed to that owning record). -/
theorem C2_referential_integrity {fs : FileSystem} {ofn : Option String}
    {inputs : List Input} {out : OutputDB} {msgs : List String}
    (hok : fragdb_merge fs ofn inputs = .ok out msgs) :
    ∀ g ∈ out.fragmentation,
      ∃ r ∈ out.record, r.id = g.record_id ∧
        (∀ r' ∈ out.record, r'.id = g.record_id → r' = r) ∧
        ∃ old ∈ dbsOf inputs, ∃ f ∈ old.fragmentation, ∃ o ∈ old.record,
          o.id = f.record_id ∧ f.content = g.content ∧ o.title = r.title := by
  obtain ⟨first, rest, d0, rfl, h0, hout, hmsgs, hval⟩ := fragdb_merge_ok_elim hok
  have hstep : ∀ (o : OutputDB) (d : InputDB),
      (o.inv ∧ fragProvenance (dbsOf (first :: rest)) o) → d ∈ dbsOf (first :: rest) →
      ((fragdb_merge_sql o d).inv ∧
        fragProvenance (dbsOf (first :: rest)) (fragdb_merge_sql o d)) :=
    fun o d hPd hS => ⟨inv_sql d hPd.1, fragProvenance_sql hPd.1 hPd.2 hS⟩
  have hbase : (fragdb_merge_sql (emptyOutputDB d0.options) d0).inv ∧
      fragProvenance (dbsOf (first :: rest)) (fragdb_merge_sql (emptyOutputDB d0.options) d0) :=
    hstep _ d0 ⟨inv_empty _, fragProvenance_empty _ _⟩
      (by rw [dbsOf_cons_some h0]; exact List.mem_cons_self _ _)
  have hP := merge_folds_inv (P := fun o => o.inv ∧ fragProvenance (dbsOf (first :: rest)) o)
    (S := fun d => d ∈ dbsOf (first :: rest)) hstep (dbsOf rest) _
    (fun d hd => by rw [dbsOf_cons_some h0]; exact List.mem_cons_of_mem _ hd) hbase
  have hout2 : out = merge_folds (fragdb_merge_sql (emptyOutputDB d0.options) d0) (dbsOf rest) := by
    rw [hout, dbsOf_cons_some h0, merge_folds_cons]
  rw [← hout2] at hP
  obtain ⟨hinv, hprov⟩ := hP
  intro g hg
  obtain ⟨r, hr, hid⟩ := hinv.2.2 g hg
  refine ⟨r, hr, hid, ?_, ?_⟩
  · intro r' hr' hid'
    exact eq_of_mem_of_id_nodup hinv.2.1 hr' hr (hid'.trans hid.symm)
  · exact hprov g hg r hr hid

/-- C2 witness: the two example inputs merge successfully and the
referential-integrity statement holds for their output. -/
theorem C2_witness :
    fragdb_merge [] none [inpA, inpB] = .ok outAB msgsAB ∧
    (∀ g ∈ outAB.fragmentation,
      ∃ r ∈ outAB.record, r.id = g.record_id ∧
        (∀ r' ∈ outAB.record, r'.id = g.record_id → r' = r) ∧
        ∃ old ∈ dbsOf [inpA, inpB], ∃ f ∈ old.fragmentation, ∃ o ∈ old.record,
          o.id = f.record_id ∧ f.content = g.content ∧ o.title = r.title) :=
  ⟨by decide, @C2_referential_integrity [] none [inpA, inpB] outAB msgsAB (by decide)⟩

/-- C5: on every successful merge the reported record and error-record
counts are the sums of the inputs' counts, the reported file count is the
number of inputs (all of which were processed), and the reporter output
ends with the `Merge complete. #files: N #records: R #error records: E`
line built from those numbers. -/
theorem C5_count_accounting {fs : FileSystem} {ofn : Option String}
    {inputs : List Input} {out : OutputDB} {msgs : List String}
    (hok : fragdb_merge fs ofn inputs = .ok out msgs) :
    out.record.length = ((dbsOf inputs).map fun d => d.record.length).sum ∧
    out.error_record.length = ((dbsOf inputs).map fun d => d.error_record.length).sum ∧
    (∀ i ∈ inputs, i.contents ≠ none) ∧
    msgs = output_notice ofn
      ++ [report_line inputs.length out.record.length out.error_record.length] := by
  obtain ⟨first, rest, d0, rfl, h0, hout, hmsgs, hval⟩ := fragdb_merge_ok_elim hok
  refine ⟨?_, ?_, hval, hmsgs⟩
  · rw [hout, merge_folds_record_length]
    simp [emptyOutputDB]
  · rw [hout, merge_folds_error_length]
    simp [emptyOutputDB]

/-- C5 witness: the specification's concrete scenario — inputs with
records mol1, mol2 (three fragmentations) and mol3 (one fragmentation),
no error records — reports `#files: 2 #records: 3 #error records: 0`. -/
theorem C5_witness :
    fragdb_merge [] none [inpA, inpB] = .ok outAB msgsAB ∧
    (outAB.record.length = ((dbsOf [inpA, inpB]).map fun d => d.record.length).sum ∧
      outAB.error_record.length
        = ((dbsOf [inpA, inpB]).map fun d => d.error_record.length).sum ∧
      (∀ i ∈ [inpA, inpB], i.contents ≠ none) ∧
      msgsAB = output_notice none
        ++ [report_line 2 outAB.record.length outAB.error_record.length]) ∧
    outAB.record.length = 3 ∧ outAB.error_record.length = 0 ∧
    outAB.fragmentation.length = 4 ∧
    report_line 2 outAB.record.length outAB.error_record.length
      = "Merge complete. #files: 2 #records: 3 #error records: 0" :=
  ⟨by decide, @C5_count_accounting [] none [inpA, inpB] outAB msgsAB (by decide),
    by decide, by decide, by decide, by decide⟩

/-- C8: `open_output_fragdb` always opens a fresh empty database with the
requested options at the output path — any pre-existing file there is
deleted first — and when no file exists at that path the failed deletion
(`FileNotFoundError`) is not an error: the run proceeds and produces the
same fresh output. -/
theorem C8_output_created_fresh (fs : FileSystem) (fn : String) (o : OptionsDict) :
    (open_output_fragdb fs fn o).2 = emptyOutputDB o ∧
    ((open_output_fragdb fs fn o).1.filter fun f => f.1 == fn)
      = [(fn, emptyOutputDB o)] ∧
    (os_unlink fs fn = .error () →
      open_output_fragdb fs fn o = ((fn, emptyOutputDB o) :: fs, emptyOutputDB o)) := by
  refine ⟨rfl, ?_, ?_⟩
  · unfold open_output_fragdb os_unlink
    by_cases hany : (fs.any fun f => f.1 == fn) = true
    · rw [if_pos hany]
      show ((fn, emptyOutputDB o) :: fs.filter fun f => f.1 != fn).filter
          (fun f => f.1 == fn) = _
      rw [List.filter_cons_of_pos (by simp)]
      have htail : (fs.filter fun f => f.1 != fn).filter (fun f => f.1 == fn) = [] := by
        rw [List.filter_filter, List.filter_eq_nil_iff]
        intro p _
        by_cases hp : (p.1 == fn) = true <;> simp [bne, hp]
      rw [htail]
    · rw [if_neg hany]
      show ((fn, emptyOutputDB o) :: fs).filter (fun f => f.1 == fn) = _
      rw [List.filter_cons_of_pos (by simp)]
      have htail : fs.filter (fun f => f.1 == fn) = [] := by
        rw [List.filter_eq_nil_iff]
        intro p hp hc
        exact hany (List.any_eq_true.mpr ⟨p, hp, hc⟩)
      rw [htail]
  · intro hu
    unfold open_output_fragdb
    rw [hu]

/-- C8 witness: with no file at the output path, the deletion fails with
`FileNotFoundError`, yet the database is created fresh all the same. -/
theorem C8_witness :
    os_unlink [] "merged.fragdb" = .error () ∧
    open_output_fragdb [] "merged.fragdb" optsD
      = (("merged.fragdb", emptyOutputDB optsD) :: [], emptyOutputDB optsD) :=
  ⟨rfl, (C8_output_created_fresh [] "merged.fragdb" optsD).2.2 rfl⟩

/-- C9 counterexample: two accepted inputs both carrying an error record
titled bad1 merge successfully, and the output's error-record titles are
not unique — the merge never enforces error-title uniqueness. -/
theorem C9_counterexample :
    (fragdb_merge [] none [inpE1, inpE2]).isOk = true ∧
    ¬ (fragdb_merge [] none [inpE1, inpE2]).errTitles.Nodup := by
  decide

/-- C9 (amended): error-record titles are unique in the merged output
whenever the inputs' error-record titles are globally duplicate-free;
the merge itself performs no uniqueness check on them. -/
theorem C9_error_titles_unique {fs : FileSystem} {ofn : Option String}
    {inputs : List Input} {out : OutputDB} {msgs : List String}
    (hok : fragdb_merge fs ofn inputs = .ok out msgs)
    (hnd : ((dbsOf inputs).flatMap fun d => d.error_record.map fun e => e.title).Nodup) :
    (out.error_record.map fun e => e.title).Nodup := by
  obtain ⟨first, rest, d0, rfl, h0, hout, -, -⟩ := fragdb_merge_ok_elim hok
  rw [hout, merge_folds_error_record]
  simp only [emptyOutputDB, List.nil_append]
  rw [List.map_flatMap]
  exact hnd

/-- C9 witness: inputs with disjoint error titles yield unique output
error titles. -/
theorem C9_witness :
    (fragdb_merge [] none [inpA, inpB] = .ok outAB msgsAB ∧
      ((dbsOf [inpA, inpB]).flatMap fun d => d.error_record.map fun e => e.title).Nodup) ∧
    (outAB.error_record.map fun e => e.title).Nodup :=
  ⟨⟨by decide, by decide⟩,
    @C9_error_titles_unique [] none [inpA, inpB] outAB msgsAB (by decide) (by decide)⟩

/-- C10: the duplicate-key validation compares only record titles.
Whatever the inputs' error records are — a record title equal to an error
title, or an error title shared by several inputs — the merge succeeds as
long as record titles are disjoint, and every error row is copied into
the output. -/
theorem C10_error_titles_never_block (fs : FileSystem) (ofn : Option String)
    (first : Input) (rest : List Input) (d0 : InputDB)
    (h0 : first.contents = some d0)
    (hval : ∀ i ∈ rest, i.contents ≠ none)
    (hopt : ∀ i ∈ rest, ∀ d, i.contents = some d → d.options = d0.options)
    (hdisj : titlesDisjoint ((dbsOf (first :: rest)).map inputTitles)) :
    ∃ out msgs, fragdb_merge fs ofn (first :: rest) = .ok out msgs ∧
      out.error_record = (dbsOf (first :: rest)).flatMap fun d => d.error_record := by
  refine ⟨_, _, fragdb_merge_eq_ok fs ofn rest h0 hopt hval hdisj, ?_⟩
  rw [merge_folds_error_record]
  simp [emptyOutputDB]

/-- C1: merging two valid inputs with identical options and disjoint
record-title sets succeeds; the output's record titles are A's titles
followed by B's (their union, as the membership clause states), and each
title carries exactly the fragmentation content it had in its
originating input. -/
theorem C1_union_completeness (fs : FileSystem) (ofn : Option String)
    (A B : Input) (dA dB : InputDB)
    (hA : A.contents = some dA) (hB : B.contents = some dB)
    (hwA : dA.wf) (hwB : dB.wf)
    (hopts : dB.options = dA.options)
    (hdisj : ∀ t ∈ inputTitles dA, t ∉ inputTitles dB) :
    ∃ out msgs, fragdb_merge fs ofn [A, B] = .ok out msgs ∧
      recordTitles out.record = inputTitles dA ++ inputTitles dB ∧
      (∀ t, t ∈ recordTitles out.record ↔ (t ∈ inputTitles dA ∨ t ∈ inputTitles dB)) ∧
      (∀ t ∈ inputTitles dA,
        fragsOfTitle out.record out.fragmentation t
          = fragsOfTitle dA.record dA.fragmentation t) ∧
      (∀ t ∈ inputTitles dB,
        fragsOfTitle out.record out.fragmentation t
          = fragsOfTitle dB.record dB.fragmentation t) := by
  have hdbs : dbsOf [A, B] = [dA, dB] := by
    unfold dbsOf
    rw [List.filterMap_cons, List.filterMap_cons, hA, hB]
    rfl
  have hdisjT : titlesDisjoint ((dbsOf [A, B]).map inputTitles) := by
    rw [hdbs]
    unfold titlesDisjoint
    refine List.pairwise_cons.mpr ⟨?_, ?_⟩
    · intro b hb
      rcases List.mem_cons.mp hb with rfl | hb
      · exact hdisj
      · cases hb
    · refine List.pairwise_cons.mpr ⟨?_, List.Pairwise.nil⟩
      intro b hb
      cases hb
  have hoptB : ∀ i ∈ [B], ∀ d, i.contents = some d → d.options = dA.options := by
    intro i hi d hd
    rcases List.mem_cons.mp hi with rfl | hi
    · rw [hB] at hd
      cases hd
      exact hopts
    · cases hi
  have hvalB : ∀ i ∈ [B], i.contents ≠ none := by
    intro i hi
    rcases List.mem_cons.mp hi with rfl | hi
    · rw [hB]
      exact fun hk => by cases hk
    · cases hi
  have hok := fragdb_merge_eq_ok fs ofn [B] hA hoptB hvalB hdisjT
  have htitles : recordTitles (merge_folds (emptyOutputDB dA.options) (dbsOf [A, B])).record
      = inputTitles dA ++ inputTitles dB := by
    rw [hdbs, merge_folds_record_titles]
    show ([] : List String) ++ _ = _
    rw [List.nil_append, List.flatMap_cons, List.flatMap_cons, List.flatMap_nil,
      List.append_nil]
  have hfrags := merge_folds_fragsOfTitle [dA, dB] (emptyOutputDB dA.options)
    (inv_empty _) ?_ ?_
  · refine ⟨_, _, hok, htitles, ?_, ?_, ?_⟩
    · intro t
      rw [htitles, List.mem_append]
    · intro t ht
      have := hfrags.2 dA (List.mem_cons_self _ _) t ht
      rw [hdbs]
      exact this
    · intro t ht
      have := hfrags.2 dB (List.mem_cons_of_mem _ (List.mem_cons_self _ _)) t ht
      rw [hdbs]
      exact this
  · intro d hd
    rcases List.mem_cons.mp hd with rfl | hd
    · exact hwA.1
    · rcases List.mem_cons.mp hd with rfl | hd
      · exact hwB.1
      · cases hd
  · unfold titlesDisjoint
    refine List.pairwise_cons.mpr ⟨?_, ?_⟩
    · intro b _ x hx
      cases hx
    · rw [hdbs] at hdisjT
      exact hdisjT

/-- C1 witness: the two example inputs satisfy the hypotheses and the
union-completeness conclusion. -/
theorem C1_witness :
    (inpA.contents = some dbA ∧ inpB.contents = some dbB ∧ dbA.wf ∧ dbB.wf ∧
      dbB.options = dbA.options ∧ (∀ t ∈ inputTitles dbA, t ∉ inputTitles dbB)) ∧
    (∃ out msgs, fragdb_merge [] none [inpA, inpB] = .ok out msgs ∧
      recordTitles out.record = inputTitles dbA ++ inputTitles dbB ∧
      (∀ t, t ∈ recordTitles out.record ↔ (t ∈ inputTitles dbA ∨ t ∈ inputTitles dbB)) ∧
      (∀ t ∈ inputTitles dbA,
        fragsOfTitle out.record out.fragmentation t
          = fragsOfTitle dbA.record dbA.fragmentation t) ∧
      (∀ t ∈ inputTitles dbB,
        fragsOfTitle out.record out.fragmentation t
          = fragsOfTitle dbB.record dbB.fragmentation t)) :=
  ⟨⟨rfl, rfl, by decide, by decide, by decide, by decide⟩,
    C1_union_completeness [] none inpA inpB dbA dbB rfl rfl
      (by decide) (by decide) (by decide) (by decide)⟩

/-- C7: merging a single valid input yields an output whose error
records are identical, whose records are identical apart from the
internally assigned ids, and whose fragmentation rows are, as a
multiset of non-key columns, exactly the input's. -/
theorem C7_single_input (fs : FileSystem) (ofn : Option String)
    (A : Input) (dA : InputDB) (hA : A.contents = some dA) (hw : dA.wf) :
    ∃ out msgs, fragdb_merge fs ofn [A] = .ok out msgs ∧
      out.error_record = dA.error_record ∧
      out.record.map Record.content = dA.record.map Record.content ∧
      (out.fragmentation.map Fragmentation.content).Perm
        (dA.fragmentation.map Fragmentation.content) := by
  have hempty_r : (emptyOutputDB dA.options).record = [] := rfl
  have hempty_e : (emptyOutputDB dA.options).error_record = [] := rfl
  have hempty_n : (emptyOutputDB dA.options).next_id = 1 := rfl
  have hempty_f : (emptyOutputDB dA.options).fragmentation = [] := rfl
  refine ⟨fragdb_merge_sql (emptyOutputDB dA.options) dA,
    output_notice ofn ++ [report_line 1
      (fragdb_merge_sql (emptyOutputDB dA.options) dA).record.length
      (fragdb_merge_sql (emptyOutputDB dA.options) dA).error_record.length],
    ?_, ?_, ?_, ?_⟩
  · rw [fragdb_merge_cons fs ofn [] hA]
    rfl
  · rw [sql_error_record, hempty_e, List.nil_append]
  · rw [sql_record, hempty_r, hempty_n, List.nil_append, map_content_assignIds]
  · rw [sql_fragmentation, hempty_f, hempty_r, hempty_n, List.nil_append,
      List.nil_append]
    exact rekey_frags_content_perm 1 hw

/-- C7 witness: merging `dbA` alone reproduces its rows. -/
theorem C7_witness :
    (inpA.contents = some dbA ∧ dbA.wf) ∧
    (∃ out msgs, fragdb_merge [] none [inpA] = .ok out msgs ∧
      out.error_record = dbA.error_record ∧
      out.record.map Record.content = dbA.record.map Record.content ∧
      (out.fragmentation.map Fragmentation.content).Perm
        (dbA.fragmentation.map Fragmentation.content)) :=
  ⟨⟨rfl, by decide⟩, C7_single_input [] none inpA dbA rfl (by decide)⟩

/-- C3 counterexample: `dbA` and `dbBopts` share the record title mol1,
yet merging them does not terminate with the duplicate-key error as the
claim states: their options differ, the options comparison runs before
the duplicate check, and the run dies with the options-mismatch error. -/
theorem C3_counterexample :
    ("mol1" ∈ inputTitles dbA ∧ "mol1" ∈ inputTitles dbBopts) ∧
    (fragdb_merge [] none [inpA, inpBopts]).isDuplicateKeyFailure = false ∧
    fragdb_merge [] none [inpA, inpBopts]
      = .failed (.options_mismatch "bopts.fragdb" "a.fragdb"
          [("cut_smarts", "special", "default")]) (some outA) := by
  decide

/-- C3 (amended): for inputs A and B with identical configuration
options that share at least one record title, the merge fails with the
duplicate-key error naming the second file and the first colliding title
(the first title of B's records, in scan order, already present in the
output), and the committed output is exactly the merge of A alone — no
rows from B. -/
theorem C3_duplicate_key_aborts (fs : FileSystem) (ofn : Option String)
    (A B : Input) (dA dB : InputDB)
    (hA : A.contents = some dA) (hB : B.contents = some dB)
    (hopts : dB.options = dA.options)
    (hshared : ∃ t, t ∈ inputTitles dA ∧ t ∈ inputTitles dB) :
    ∃ t, t ∈ inputTitles dA ∧ t ∈ inputTitles dB ∧
      duplicate_title? (fragdb_merge_sql (emptyOutputDB dA.options) dA) dB = some t ∧
      fragdb_merge fs ofn [A, B]
        = .failed (.duplicate_key B.filename t)
            (some (fragdb_merge_sql (emptyOutputDB dA.options) dA)) := by
  have htitles : recordTitles (fragdb_merge_sql (emptyOutputDB dA.options) dA).record
      = inputTitles dA := by
    rw [sql_record_titles]
    show ([] : List String) ++ _ = _
    rw [List.nil_append]
  obtain ⟨t0, ht0A, ht0B⟩ := hshared
  have hex : ∃ o ∈ dB.record,
      o.title ∈ recordTitles (fragdb_merge_sql (emptyOutputDB dA.options) dA).record := by
    obtain ⟨o, ho, hot⟩ := mem_recordTitles.mp ht0B
    refine ⟨o, ho, ?_⟩
    rw [hot, htitles]
    exact ht0A
  obtain ⟨t, hdupt, htB, htO⟩ := duplicate_title?_eq_some hex
  rw [htitles] at htO
  refine ⟨t, htO, htB, hdupt, ?_⟩
  rw [fragdb_merge_cons fs ofn [B] hA]
  have hloop : merge_loop A.filename dA.options
      (fragdb_merge_sql (emptyOutputDB dA.options) dA) [B]
      = .error (.duplicate_key B.filename t,
          fragdb_merge_sql (emptyOutputDB dA.options) dA) := by
    simp only [merge_loop_cons, hB]
    rw [check_options_mismatch, if_pos hopts, hdupt]
  rw [hloop]

/-- C3 witness: `dbA` and `dbBdup` share mol1 with equal options; the
merge dies with the duplicate-key error and commits only A's rows. -/
theorem C3_witness :
    (inpA.contents = some dbA ∧ inpBdup.contents = some dbBdup ∧
      dbBdup.options = dbA.options ∧
      (∃ t, t ∈ inputTitles dbA ∧ t ∈ inputTitles dbBdup)) ∧
    (∃ t, t ∈ inputTitles dbA ∧ t ∈ inputTitles dbBdup ∧
      duplicate_title? (fragdb_merge_sql (emptyOutputDB dbA.options) dbA) dbBdup = some t ∧
      fragdb_merge [] none [inpA, inpBdup]
        = .failed (.duplicate_key inpBdup.filename t)
            (some (fragdb_merge_sql (emptyOutputDB dbA.options) dbA))) :=
  ⟨⟨rfl, rfl, by decide, ⟨"mol1", by decide, by decide⟩⟩,
    C3_duplicate_key_aborts [] none inpA inpBdup dbA dbBdup rfl rfl (by decide)
      ⟨"mol1", by decide, by decide⟩⟩

/-- C4: when an input after the first carries options differing from the
first file's reference options, the merge fails before any copy from
that input — the committed output is exactly the state after the
preceding inputs — with the options-mismatch error naming both files and
carrying exactly the differing fields, rendered one per line as
`  field: value != first_value`. -/
theorem C4_options_mismatch (fs : FileSystem) (ofn : Option String)
    (first : Input) (rest1 : List Input) (B : Input) (rest2 : List Input)
    (d0 dB : InputDB) (outPre : OutputDB) (msgs : List String)
    (h0 : first.contents = some d0)
    (hpre : fragdb_merge fs ofn (first :: rest1) = .ok outPre msgs)
    (hB : B.contents = some dB)
    (hne : dB.options ≠ d0.options) :
    fragdb_merge fs ofn (first :: (rest1 ++ B :: rest2))
      = .failed (.options_mismatch B.filename first.filename
          (options_diffs dB.options d0.options)) (some outPre) ∧
    (∀ k v w, (k, v, w) ∈ options_diffs dB.options d0.options ↔
      ((k, v) ∈ dB.options ∧ dictLookup d0.options k = some w ∧ v ≠ w)) ∧
    options_mismatch_lines B.filename first.filename (options_diffs dB.options d0.options)
      = ("Cannot merge. The options in " ++ pyrepr B.filename ++ " differ from "
          ++ pyrepr first.filename ++ ".")
        :: (options_diffs dB.options d0.options).map
            (fun kvv => "  " ++ kvv.1 ++ ": " ++ pyrepr kvv.2.1 ++ " != " ++ pyrepr kvv.2.2) := by
  refine ⟨?_, fun k v w => mem_options_diffs, rfl⟩
  have hloop := fragdb_merge_ok_loop h0 hpre
  rw [fragdb_merge_cons fs ofn (rest1 ++ B :: rest2) h0]
  simp only [merge_loop_append first.filename d0.options rest1 (B :: rest2), hloop]
  simp only [merge_loop_cons, hB]
  rw [check_options_mismatch, if_neg hne]

/-- C4 witness: merging `dbA` then `dbCopts` (one differing option
field) fails with the mismatch on `cut_smarts`, committing only A. -/
theorem C4_witness :
    (inpA.contents = some dbA ∧
      fragdb_merge [] none [inpA] = .ok outA msgsA ∧
      inpCopts.contents = some dbCopts ∧ dbCopts.options ≠ dbA.options) ∧
    (fragdb_merge [] none (inpA :: ([] ++ inpCopts :: []))
      = .failed (.options_mismatch inpCopts.filename inpA.filename
          (options_diffs dbCopts.options dbA.options)) (some outA) ∧
    (∀ k v w, (k, v, w) ∈ options_diffs dbCopts.options dbA.options ↔
      ((k, v) ∈ dbCopts.options ∧ dictLookup dbA.options k = some w ∧ v ≠ w)) ∧
    options_mismatch_lines inpCopts.filename inpA.filename
        (options_diffs dbCopts.options dbA.options)
      = ("Cannot merge. The options in " ++ pyrepr inpCopts.filename ++ " differ from "
          ++ pyrepr inpA.filename ++ ".")
        :: (options_diffs dbCopts.options dbA.options).map
            (fun kvv => "  " ++ kvv.1 ++ ": " ++ pyrepr kvv.2.1 ++ " != " ++ pyrepr kvv.2.2)) :=
  ⟨⟨rfl, by decide, rfl, by decide⟩,
    C4_options_mismatch [] none inpA [] inpCopts [] dbA dbCopts outA msgsA
      rfl (by decide) rfl (by decide)⟩

/-- C6: when a run that had fully merged a prefix of its inputs fails on
a later input, the committed output at failure still contains every
table row of the prefix's merged output as a prefix — no rollback of
previously completed inputs ever happens. -/
theorem C6_prior_inputs_remain (fs : FileSystem) (ofn : Option String)
    (first : Input) (rest1 rest2 : List Input) (d0 : InputDB)
    (outPre : OutputDB) (msgs : List String) (err : MergeError) (outFail : OutputDB)
    (h0 : first.contents = some d0)
    (hpre : fragdb_merge fs ofn (first :: rest1) = .ok outPre msgs)
    (hfail : fragdb_merge fs ofn (first :: (rest1 ++ rest2)) = .failed err (some outFail)) :
    (∃ t, outFail.error_record = outPre.error_record ++ t) ∧
    (∃ t, outFail.record = outPre.record ++ t) ∧
    (∃ t, outFail.fragmentation = outPre.fragmentation ++ t) := by
  have hloop := fragdb_merge_ok_loop h0 hpre
  rw [fragdb_merge_cons fs ofn (rest1 ++ rest2) h0] at hfail
  simp only [merge_loop_append first.filename d0.options rest1 rest2, hloop] at hfail
  have hgrow := merge_loop_grows first.filename d0.options rest2 outPre
  cases hl : merge_loop first.filename d0.options outPre rest2 with
  | ok out2 =>
      rw [hl] at hfail
      cases hfail
  | error e =>
      obtain ⟨e1, out2⟩ := e
      rw [hl] at hfail
      injection hfail with h1 h2
      injection h2 with h2
      rw [hl] at hgrow
      rw [← h2]
      exact hgrow

/-- C6 witness: after `dbA` merges, a duplicate-title failure on the
second input leaves A's rows committed. -/
theorem C6_witness :
    (inpA.contents = some dbA ∧
      fragdb_merge [] none [inpA] = .ok outA msgsA ∧
      fragdb_merge [] none (inpA :: ([] ++ [inpBdup]))
        = .failed (.duplicate_key "bdup.fragdb" "mol1") (some outA)) ∧
    ((∃ t, outA.error_record = outA.error_record ++ t) ∧
      (∃ t, outA.record = outA.record ++ t) ∧
      (∃ t, outA.fragmentation = outA.fragmentation ++ t)) :=
  ⟨⟨rfl, by decide, by decide⟩,
    C6_prior_inputs_remain [] none inpA [] [inpBdup] dbA outA msgsA
      (.duplicate_key "bdup.fragdb" "mol1") outA rfl (by decide) (by decide)⟩

/-- C10 witness: `dbE1` and `dbE2` share the error title bad1, and
`dbE2`'s record is itself titled bad1 (equal to `dbE1`'s error title);
the merge succeeds and copies both error rows. -/
theorem C10_witness :
    ((inpE1.contents = some dbE1) ∧
      (∀ i ∈ [inpE2], i.contents ≠ none) ∧
      (∀ i ∈ [inpE2], ∀ d, i.contents = some d → d.options = dbE1.options) ∧
      titlesDisjoint ((dbsOf [inpE1, inpE2]).map inputTitles)) ∧
    (∃ out msgs, fragdb_merge [] none [inpE1, inpE2] = .ok out msgs ∧
      out.error_record = (dbsOf [inpE1, inpE2]).flatMap fun d => d.error_record) :=
  ⟨⟨by decide, by decide, by decide, by decide⟩,
    C10_error_titles_never_block [] none inpE1 [inpE2] dbE1
      (by decide) (by decide) (by decide) (by decide)⟩

end Mmpdb
